import Mathlib

/-
Verification of the DocMineAI chunking / parsing / merging / extraction
pipeline against its natural-language specification.

The Python sources are shallowly embedded:
  * Python strings are `List Char` (`Str`); Python slice, `rfind`, `strip`
    and `split` semantics are reproduced on lists.
  * Python integers are Lean `Int`.
  * Python values (the shapes produced by `yaml.safe_load`) are `PyVal`;
    Python dicts become insertion-ordered association lists.
  * Fallible calls (the model client, `yaml.safe_load`) are `Except`.
  * The `while` loop of `chunk_text` is embedded with explicit fuel; fuel
    exhaustion (`Option.none`) witnesses divergence of the source loop.
-/

namespace DocMine

/-- Python strings are modelled as lists of characters. -/
abbrev Str := List Char

/-! ## Python string primitives -/

/-- Whitespace characters recognised by Python `str.strip` and the regex
class `\s` under the Unicode semantics of `str` patterns: the ASCII
whitespace `\t \n \v \f \r` and space, the separator controls
U+001C through U+001F, next line U+0085, no-break space U+00A0, the
Unicode space separators U+1680, U+2000 through U+200A, U+202F, U+205F
and U+3000, and the line and paragraph separators U+2028 and U+2029. -/
def isPySpace (c : Char) : Bool :=
  c = ' ' || c = '\t' || c = '\n' || c = '\r' || c = '\x0b' || c = '\x0c' ||
  (0x1c ≤ c.toNat && c.toNat ≤ 0x1f) ||
  c = '\x85' || c = '\xa0' || c = ' ' ||
  (0x2000 ≤ c.toNat && c.toNat ≤ 0x200a) ||
  c = ' ' || c = ' ' || c = ' ' || c = ' ' ||
  c = '　'

/-- Python `str.strip()`: drop leading and trailing whitespace. -/
def pyStrip (l : Str) : Str :=
  ((l.dropWhile isPySpace).reverse.dropWhile isPySpace).reverse

/-- Python slice index adjustment: a negative index counts from the end,
and indices are clamped to the interval from 0 to the length. -/
def pyAdjust (n : Nat) (i : Int) : Nat :=
  (min (max (if i < 0 then (n : Int) + i else i) 0) (n : Int)).toNat

/-- Python `s[i:j]` on a list of characters. -/
def pySlice (l : Str) (i j : Int) : Str :=
  (l.take (pyAdjust l.length j)).drop (pyAdjust l.length i)

/-- Helper for `pyRfind`: scan the list, remembering the index of the last
occurrence seen so far. -/
def rfindAux (c : Char) : Str → Nat → Int → Int
  | [], _, best => best
  | x :: xs, i, best => rfindAux c xs (i + 1) (if x = c then (i : Int) else best)

/-- Python `s.rfind(c)`: index of the last occurrence of `c`, or -1. -/
def pyRfind (l : Str) (c : Char) : Int :=
  rfindAux c l 0 (-1)

/-! ## TextProcessor.chunk_text (src/src/text_processor.py, lines 15-45)

The `while start < len(text)` loop is embedded with fuel: `Option.none`
means the fuel was exhausted while the loop guard still held, i.e. the
Python loop runs for more iterations than the supplied fuel. -/

/-- The per-iteration computation of `end` in `chunk_text`: the hard
cutoff `start + chunk_size`, moved back to just after the last sentence
boundary of the window when that boundary is late enough
(`break_point > chunk_size - 200`). -/
def chunk_end (chunkSize : Int) (text : Str) (start : Int) : Int :=
  let end0 := start + chunkSize
  if end0 < (text.length : Int) then
    let ct := pySlice text start end0
    let breakPoint := max (pyRfind ct '.') (pyRfind ct '\n')
    if breakPoint > chunkSize - 200 then start + breakPoint + 1 else end0
  else end0

/-- One-for-one embedding of the `while` loop of `chunk_text`.
`chunkSize` and `overlap` are the constructor arguments of
`TextProcessor`; `start` is the Python loop variable (an `Int`, since the
source can drive it negative); `acc` is the `chunks` list. -/
def chunk_text_loop (chunkSize overlap : Int) (text : Str) :
    Nat → Int → List Str → Option (List Str)
  | 0, start, acc =>
    if start < (text.length : Int) then Option.none else some acc
  | fuel + 1, start, acc =>
    if start < (text.length : Int) then
      let endv := chunk_end chunkSize text start
      let chunk := pyStrip (pySlice text start endv)
      chunk_text_loop chunkSize overlap text fuel
        (if endv < (text.length : Int) then endv - overlap
         else (text.length : Int))
        (if chunk.isEmpty then acc else acc ++ [chunk])
    else some acc

/-- `TextProcessor.chunk_text`: split text into overlapping chunks. -/
def chunk_text (chunkSize overlap : Int) (fuel : Nat) (text : Str) :
    Option (List Str) :=
  if (text.length : Int) ≤ chunkSize then some [text]
  else chunk_text_loop chunkSize overlap text fuel 0 []

/-! ## Claim C10: texts no longer than the chunk size are returned verbatim -/

/-- C10: for every text whose length is at most the configured chunk size,
`chunk_text` returns the one-element list holding the text verbatim; in
particular the empty text yields a list holding the empty text, and a
whitespace-only short text is returned unstripped. -/
theorem chunk_text_short_verbatim :
    (∀ (chunkSize overlap : Int) (fuel : Nat) (text : Str),
        (text.length : Int) ≤ chunkSize →
        chunk_text chunkSize overlap fuel text = some [text]) ∧
    chunk_text 2000 200 0 [] = some [[]] ∧
    chunk_text 2000 200 0 [' ', '\n', ' '] = some [[' ', '\n', ' ']] := by
  refine ⟨fun chunkSize overlap fuel text h => ?_, by decide, by decide⟩
  simp [chunk_text, h]

/-- Witness for C10 at a concrete input: the text of length 2 is at most
the chunk size 2000 and is returned verbatim as a single chunk. -/
theorem chunk_text_short_verbatim_witness :
    ((['a', 'b'] : Str).length : Int) ≤ 2000 ∧
    chunk_text 2000 200 0 ['a', 'b'] = some [['a', 'b']] :=
  ⟨by decide, chunk_text_short_verbatim.1 2000 200 0 ['a', 'b'] (by decide)⟩

/-! ## Claim C2: the loop does not guard against a non-advancing start

With `chunk_size = 200` and `overlap = 100` (so `overlap < chunk_size`)
and a text whose first window has its last sentence boundary at index 99,
the source computes `end = start + 99 + 1` and then
`start = end - overlap = start`: the window start never advances and the
`while` loop never terminates.  The text below is 99 times `b`, then `.`,
then 200 times `b` (length 300). -/

/-- Concrete text on which `chunk_text 200 100` diverges. -/
def c2Text : Str := List.replicate 99 'b' ++ '.' :: List.replicate 200 'b'

set_option maxRecDepth 16384

/-- One iteration of the loop on `c2Text` from `start = 0` appends the
first 100 characters as a chunk and returns to `start = 0`. -/
theorem c2_loop_step (fuel : Nat) (acc : List Str) :
    chunk_text_loop 200 100 c2Text (fuel + 1) 0 acc =
      chunk_text_loop 200 100 c2Text fuel 0
        (acc ++ [List.replicate 99 'b' ++ ['.']]) := by
  rfl

/-- C2 (code bug): `chunk_text` does not guard against the window start
failing to advance.  At `chunk_size = 200`, `overlap = 100` (a valid
configuration with `overlap < chunk_size`) and the text `c2Text`, the
loop start stays at 0 forever, so the fuelled embedding returns
`Option.none` for every fuel: the source loop does not terminate,
contradicting the claim that every valid configuration terminates. -/
theorem chunk_text_no_advance_guard (fuel : Nat) :
    chunk_text 200 100 fuel c2Text = Option.none := by
  have h : ∀ (n : Nat) (acc : List Str),
      chunk_text_loop 200 100 c2Text n 0 acc = Option.none := by
    intro n
    induction n with
    | zero => intro acc; rfl
    | succ k ih =>
        intro acc
        rw [c2_loop_step]
        exact ih _
  have hlen : ¬ ((c2Text.length : Int) ≤ 200) := by decide
  unfold chunk_text
  rw [if_neg hlen]
  exact h fuel []

/-! ## Claim C3: chunk coverage

The claim fails on the code: multi-window chunks are stripped, so
whitespace characters at window edges can appear in no chunk.  With
`chunk_size = 199`, `overlap = 1` (valid parameters, `overlap <
chunk_size`) and a 200-character text consisting of a space followed by
199 times `a`, the space is stripped from the first window and belongs
to no later window, so it appears in no returned chunk. -/

/-- Concrete text whose leading space appears in no chunk. -/
def c3Text : Str := ' ' :: List.replicate 199 'a'

/-- C3 counterexample: `chunk_text 199 1` on `c3Text` terminates and
returns two chunks, the space character is in the text, and the space
character is in neither chunk — so not every character of the text
appears in a chunk, refuting the claim as stated. -/
theorem chunk_text_coverage_counterexample :
    chunk_text 199 1 4 c3Text = some [List.replicate 198 'a', ['a', 'a']] ∧
    ' ' ∈ c3Text ∧
    ¬ (' ' ∈ List.replicate 198 'a' ∨ ' ' ∈ (['a', 'a'] : Str)) := by
  decide

/-! Supporting lemmas for the amended coverage theorem. -/

theorem rfindAux_lt (c : Char) :
    ∀ (l : Str) (i : Nat) (best : Int), best < (i : Int) →
      rfindAux c l i best < (i : Int) + l.length := by
  intro l
  induction l with
  | nil => intro i best h; simpa [rfindAux] using h
  | cons x xs ih =>
      intro i best h
      have h' : (if x = c then (i : Int) else best) < ((i + 1 : Nat) : Int) := by
        split <;> push_cast <;> omega
      have := ih (i + 1) (if x = c then (i : Int) else best) h'
      simp only [rfindAux, List.length_cons]
      push_cast at this ⊢
      omega

theorem pyRfind_lt (l : Str) (c : Char) : pyRfind l c < (l.length : Int) := by
  have := rfindAux_lt c l 0 (-1) (by norm_num)
  simpa [pyRfind] using this

theorem pySlice_length_le (l : Str) (i j : Int) (hi : 0 ≤ i) (hj : 0 < j - i) :
    ((pySlice l i j).length : Int) ≤ j - i := by
  simp only [pySlice, pyAdjust, List.length_drop, List.length_take]
  have hni : ¬ i < 0 := by omega
  have hnj : ¬ j < 0 := by omega
  rw [if_neg hni, if_neg hnj]
  have h1 : max i 0 = i := by omega
  have h2 : max j 0 = j := by omega
  rw [h1, h2]
  rcases le_total i (l.length : Int) with hil | hil <;>
    rcases le_total j (l.length : Int) with hjl | hjl <;>
      simp [min_def, *] <;> omega

theorem mem_dropWhile_of_mem {p : Char → Bool} {c : Char} :
    ∀ {l : Str}, c ∈ l → p c = false → c ∈ l.dropWhile p := by
  intro l
  induction l with
  | nil => intro h _; exact absurd h (List.not_mem_nil c)
  | cons x xs ih =>
      intro hmem hpc
      by_cases hx : p x
      · rw [List.dropWhile_cons_of_pos hx]
        rcases List.mem_cons.mp hmem with rfl | hxs
        · rw [hpc] at hx; exact absurd hx (by simp)
        · exact ih hxs hpc
      · rw [List.dropWhile_cons_of_neg hx]
        exact hmem

theorem mem_pyStrip {c : Char} {l : Str} (hmem : c ∈ l)
    (hc : isPySpace c = false) : c ∈ pyStrip l := by
  unfold pyStrip
  rw [List.mem_reverse]
  refine mem_dropWhile_of_mem ?_ hc
  rw [List.mem_reverse]
  exact mem_dropWhile_of_mem hmem hc

theorem getD_mem_pySlice (l : Str) (i j : Int) (k : Nat) (hi : 0 ≤ i)
    (hik : i ≤ (k : Int)) (hkj : (k : Int) < j) (hk : k < l.length) :
    l.getD k ' ' ∈ pySlice l i j := by
  have hadji : pyAdjust l.length i = i.toNat := by
    simp only [pyAdjust]
    have hni : ¬ i < 0 := by omega
    rw [if_neg hni]
    have h1 : max i 0 = i := by omega
    rw [h1]
    have h2 : min i (l.length : Int) = i := by omega
    rw [h2]
  have hadjk : i.toNat ≤ k := by omega
  have hkb : k < pyAdjust l.length j := by
    simp only [pyAdjust]
    have hnj : ¬ j < 0 := by omega
    rw [if_neg hnj]
    have h1 : max j 0 = j := by omega
    rw [h1]
    omega
  unfold pySlice
  rw [hadji]
  have hklen : k < (l.take (pyAdjust l.length j)).length := by
    simp only [List.length_take]
    omega
  have hdlen : k - i.toNat <
      ((l.take (pyAdjust l.length j)).drop i.toNat).length := by
    simp only [List.length_drop, List.length_take]
    omega
  have hidx : i.toNat + (k - i.toNat) = k := by omega
  have hgd : ((l.take (pyAdjust l.length j)).drop i.toNat)[k - i.toNat]
      = l.getD k ' ' := by
    rw [List.getElem_drop, List.getElem_take, List.getD_eq_getElem l ' ' hk]
    simp only [hidx]
  rw [← hgd]
  exact List.getElem_mem hdlen

/-- The adjusted window end never falls more than 198 characters short of
the hard cutoff: the break path requires `break_point > chunk_size - 200`. -/
theorem chunk_end_lb (cs : Int) (text : Str) (start : Int) :
    start + (cs - 198) ≤ chunk_end cs text start := by
  simp only [chunk_end]
  split_ifs <;> omega

/-- The adjusted window end never exceeds the hard cutoff
`start + chunk_size`. -/
theorem chunk_end_ub (cs : Int) (text : Str) (start : Int) (h0 : 0 ≤ start)
    (hcs : 0 < cs) : chunk_end cs text start ≤ start + cs := by
  have hlen := pySlice_length_le text start (start + cs) h0 (by omega)
  have h1 := pyRfind_lt (pySlice text start (start + cs)) '.'
  have h2 := pyRfind_lt (pySlice text start (start + cs)) '\n'
  have hm : max (pyRfind (pySlice text start (start + cs)) '.')
      (pyRfind (pySlice text start (start + cs)) '\n') <
      ((pySlice text start (start + cs)).length : Int) := max_lt h1 h2
  simp only [chunk_end]
  split_ifs <;> omega

/-- Loop invariant for the amended coverage claim: provided the overlap
is nonnegative and smaller than `chunk_size - 198` (so every iteration
advances the window start), the loop terminates within
`text.length - start` iterations, keeps every accumulated chunk, and
every non-whitespace character at an index at or beyond `start` ends up
in some produced chunk. -/
theorem chunk_text_loop_cover (cs ov : Int) (text : Str)
    (hov : 0 ≤ ov) (hcs : ov < cs - 198) :
    ∀ (fuel : Nat) (start : Int) (acc : List Str),
      0 ≤ start →
      (text.length : Int) - start ≤ (fuel : Int) →
      ∃ res, chunk_text_loop cs ov text fuel start acc = some res ∧
        (∀ l ∈ acc, l ∈ res) ∧
        (∀ k : Nat, start ≤ (k : Int) → k < text.length →
          isPySpace (text.getD k ' ') = false →
          ∃ ch ∈ res, text.getD k ' ' ∈ ch) := by
  intro fuel
  induction fuel with
  | zero =>
      intro start acc h0 hf
      have hns : ¬ start < (text.length : Int) := by omega
      refine ⟨acc, by simp [chunk_text_loop, hns], fun l hl => hl, ?_⟩
      intro k hk1 hk2 _
      exfalso
      have : ((k : Nat) : Int) < (text.length : Int) := by exact_mod_cast hk2
      omega
  | succ n ih =>
      intro start acc h0 hf
      by_cases hstart : start < (text.length : Int)
      · have hlb := chunk_end_lb cs text start
        have hub := chunk_end_ub cs text start h0 (by omega)
        have hstep : chunk_text_loop cs ov text (n + 1) start acc =
            chunk_text_loop cs ov text n
              (if chunk_end cs text start < (text.length : Int)
               then chunk_end cs text start - ov else (text.length : Int))
              (if (pyStrip (pySlice text start (chunk_end cs text start))).isEmpty
               then acc
               else acc ++ [pyStrip (pySlice text start (chunk_end cs text start))]) := by
          simp only [chunk_text_loop]
          rw [if_pos hstart]
        have hwin : ∀ k : Nat, start ≤ (k : Int) →
            (k : Int) < chunk_end cs text start → k < text.length →
            isPySpace (text.getD k ' ') = false →
            text.getD k ' ' ∈ pyStrip (pySlice text start (chunk_end cs text start)) := by
          intro k hk1 hk2 hk3 hk4
          exact mem_pyStrip
            (getD_mem_pySlice text start (chunk_end cs text start) k h0 hk1 hk2 hk3) hk4
        rw [hstep]
        by_cases hend2 : chunk_end cs text start < (text.length : Int)
        · rw [if_pos hend2]
          have h0' : 0 ≤ chunk_end cs text start - ov := by omega
          have hf' : (text.length : Int) - (chunk_end cs text start - ov) ≤ (n : Int) := by
            push_cast at hf ⊢
            omega
          obtain ⟨res, hrun, hmono, hcov⟩ := ih (chunk_end cs text start - ov)
            (if (pyStrip (pySlice text start (chunk_end cs text start))).isEmpty
             then acc
             else acc ++ [pyStrip (pySlice text start (chunk_end cs text start))])
            h0' hf'
          refine ⟨res, hrun, ?_, ?_⟩
          · intro l hl
            apply hmono
            split_ifs
            · exact hl
            · exact List.mem_append_left _ hl
          · intro k hk1 hk2 hk3
            rcases le_or_lt (chunk_end cs text start - ov) (k : Int) with hge | hlt
            · exact hcov k hge hk2 hk3
            · have hmem := hwin k hk1 (by omega) hk2 hk3
              have hne : ¬ (pyStrip (pySlice text start (chunk_end cs text start))).isEmpty := by
                have hnil := List.ne_nil_of_mem hmem
                simp [List.isEmpty_iff, hnil]
              refine ⟨pyStrip (pySlice text start (chunk_end cs text start)), ?_, hmem⟩
              apply hmono
              rw [if_neg hne]
              exact List.mem_append_right _ (by simp)
        · rw [if_neg hend2]
          have hf' : (text.length : Int) - (text.length : Int) ≤ (n : Int) := by
            omega
          obtain ⟨res, hrun, hmono, hcov⟩ := ih (text.length : Int)
            (if (pyStrip (pySlice text start (chunk_end cs text start))).isEmpty
             then acc
             else acc ++ [pyStrip (pySlice text start (chunk_end cs text start))])
            (by positivity) hf'
          refine ⟨res, hrun, ?_, ?_⟩
          · intro l hl
            apply hmono
            split_ifs
            · exact hl
            · exact List.mem_append_left _ hl
          · intro k hk1 hk2 hk3
            have hklen : ((k : Nat) : Int) < (text.length : Int) := by exact_mod_cast hk2
            have hmem := hwin k hk1 (by omega) hk2 hk3
            have hne : ¬ (pyStrip (pySlice text start (chunk_end cs text start))).isEmpty := by
              have hnil := List.ne_nil_of_mem hmem
              simp [List.isEmpty_iff, hnil]
            refine ⟨pyStrip (pySlice text start (chunk_end cs text start)), ?_, hmem⟩
            apply hmono
            rw [if_neg hne]
            exact List.mem_append_right _ (by simp)
      · refine ⟨acc, by simp [chunk_text_loop, hstart], fun l hl => hl, ?_⟩
        intro k hk1 hk2 _
        exfalso
        have : ((k : Nat) : Int) < (text.length : Int) := by exact_mod_cast hk2
        omega

/-- C3 (amended): when the overlap is nonnegative and smaller than
`chunk_size - 198` — the condition under which every iteration advances
the window start, which the counterexamples to the original claim show
is needed — `chunk_text` terminates within `text.length` iterations and
every non-whitespace character of the text appears in at least one
returned chunk.  Whitespace-only window edges may be trimmed away, so
whitespace characters are excluded. -/
theorem chunk_text_covers_nonspace (cs ov : Int) (fuel : Nat) (text : Str)
    (hov : 0 ≤ ov) (hcs : ov < cs - 198)
    (hfuel : (text.length : Int) ≤ (fuel : Int)) :
    ∃ chunks, chunk_text cs ov fuel text = some chunks ∧
      ∀ c ∈ text, isPySpace c = false → ∃ ch ∈ chunks, c ∈ ch := by
  by_cases hshort : (text.length : Int) ≤ cs
  · refine ⟨[text], by simp [chunk_text, hshort], ?_⟩
    intro c hc _
    exact ⟨text, by simp, hc⟩
  · obtain ⟨res, hrun, _, hcov⟩ :=
      chunk_text_loop_cover cs ov text hov hcs fuel 0 [] le_rfl (by omega)
    refine ⟨res, ?_, ?_⟩
    · rw [chunk_text, if_neg hshort]
      exact hrun
    · intro c hc hsp
      obtain ⟨k, hk, hkc⟩ := List.mem_iff_getElem.mp hc
      have hgd : text.getD k ' ' = c := by
        rw [List.getD_eq_getElem text ' ' hk]
        exact hkc
      obtain ⟨ch, hch, hmem⟩ := hcov k (by positivity) hk (by rw [hgd]; exact hsp)
      exact ⟨ch, hch, by rw [← hgd]; exact hmem⟩

/-- Witness for the amended C3 theorem at a concrete input: overlap 1,
chunk size 200, fuel 2, text of length 2; both characters are
non-whitespace and appear in the single returned chunk. -/
theorem chunk_text_covers_nonspace_witness :
    (0 : Int) ≤ 1 ∧ (1 : Int) < 200 - 198 ∧
    (((['a', 'b'] : Str).length : Int) ≤ ((2 : Nat) : Int)) ∧
    (∃ chunks, chunk_text 200 1 2 ['a', 'b'] = some chunks ∧
      ∀ c ∈ (['a', 'b'] : Str), isPySpace c = false → ∃ ch ∈ chunks, c ∈ ch) :=
  ⟨by decide, by decide, by decide,
    chunk_text_covers_nonspace 200 1 2 ['a', 'b'] (by decide) (by decide) (by decide)⟩

/-! ## Python values

`PyVal` covers the value shapes the pipeline manipulates: the results of
`yaml.safe_load`, the entries of merged result dictionaries, and the
per-chunk contributions.  Python dicts are insertion-ordered association
lists. -/

inductive PyVal where
  | pyNone : PyVal
  | pyBool : Bool → PyVal
  | pyInt : Int → PyVal
  | str : Str → PyVal
  | list : List PyVal → PyVal
  | dict : List (Str × PyVal) → PyVal

/-- Python truthiness for the shapes of `PyVal`. -/
def PyVal.truthy : PyVal → Bool
  | .pyNone => false
  | .pyBool b => b
  | .pyInt n => decide (n ≠ 0)
  | .str s => !s.isEmpty
  | .list l => !l.isEmpty
  | .dict d => !d.isEmpty

instance : Inhabited PyVal := ⟨PyVal.pyNone⟩

/-- Discriminator: is the value a Python mapping. -/
def isDict : PyVal → Bool
  | .dict _ => true
  | _ => false

/-! ## Insertion-ordered association lists (Python dict semantics) -/

/-- Python `d[k]` as an optional lookup (first matching key). -/
def lookupKey {α : Type} (d : List (Str × α)) (k : Str) : Option α :=
  (d.find? (fun p => decide (p.1 = k))).map (fun p => p.2)

/-- Python `k in d`. -/
def hasKey {α : Type} (d : List (Str × α)) (k : Str) : Bool :=
  d.any (fun p => decide (p.1 = k))

/-- In-place mutation of the value stored under an existing key
(`d[k].extend(...)` / `d[k].append(...)`). -/
def updKey {α : Type} (d : List (Str × α)) (k : Str) (f : α → α) :
    List (Str × α) :=
  d.map (fun p => if p.1 = k then (k, f p.2) else p)

/-- Python `d[k] = v`: overwrite in place when the key exists, else append
at the end (insertion order). -/
def setKey {α : Type} (d : List (Str × α)) (k : Str) (v : α) :
    List (Str × α) :=
  if hasKey d k then updKey d k (fun _ => v) else d ++ [(k, v)]

/-! ## YAMLProcessor.parse_yaml_from_text (src/src/text_processor.py, 81-98)

The regex search for a fenced block
(three backticks, a case-insensitive `ya?ml` tag, `\s*\n`, a lazy body,
then a newline and three backticks) is reproduced with explicit
backtracking: leftmost start position, greedy `\s*` backtracked from the
longest run, lazy body. -/

/-- Case-insensitive comparison against a lowercase target letter. -/
def lowerEq (c tgt : Char) : Bool := c.toLower = tgt

/-- Lazy search for the closing `\n` plus three backticks; `acc` holds the
reversed body matched so far. -/
def findCloseFence : Str → Str → Option Str
  | '\n' :: '`' :: '`' :: '`' :: _, acc => some acc.reverse
  | c :: rest, acc => findCloseFence rest (c :: acc)
  | [], _ => Option.none

/-- Attempt to match `\n` at offset `k` of `cs` followed by the lazy body
and the closing fence. -/
def tryBody (cs : Str) (k : Nat) : Option Str :=
  match cs.drop k with
  | '\n' :: rest => findCloseFence rest []
  | _ => Option.none

/-- Backtrack the greedy `\s*`: try the newline at offset `k`, then at
smaller offsets. -/
def tryWs (cs : Str) : Nat → Option Str
  | 0 => tryBody cs 0
  | k + 1 => (tryBody cs (k + 1)).orElse (fun _ => tryWs cs k)

/-- After the tag, match `\s*\n` (with regex backtracking: longest
whitespace run first) and then the lazy body. -/
def matchAfterTag (cs : Str) : Option Str :=
  tryWs cs (cs.takeWhile isPySpace).length

/-- Match the case-insensitive tag `ya?ml` (greedy optional `a` first)
and then the rest of the pattern. -/
def matchTag : Str → Option Str
  | y :: rest =>
    if lowerEq y 'y' then
      (match rest with
       | a :: m :: l :: rest2 =>
         if lowerEq a 'a' && lowerEq m 'm' && lowerEq l 'l' then
           matchAfterTag rest2
         else Option.none
       | _ => Option.none).orElse (fun _ =>
        match rest with
        | m :: l :: rest2 =>
          if lowerEq m 'm' && lowerEq l 'l' then matchAfterTag rest2
          else Option.none
        | _ => Option.none)
    else Option.none
  | [] => Option.none

/-- Try to match the whole fence pattern at this position: three literal
backticks, then the tag. -/
def matchFenceAt : Str → Option Str
  | '`' :: '`' :: '`' :: rest => matchTag rest
  | _ => Option.none

/-- `re.search` for the fence pattern: leftmost start position wins. -/
def findYamlFence : Str → Option Str
  | [] => Option.none
  | c :: rest => (matchFenceAt (c :: rest)).orElse (fun _ => findYamlFence rest)

/-- The text handed to the structured parser: the fenced body when a
fence matches, otherwise the whole trimmed input. -/
def yaml_body (text : Str) : Str :=
  match findYamlFence text with
  | some body => body
  | Option.none => pyStrip text

/-! ## YAMLProcessor._extract_structured_data (src/src/text_processor.py, 100-124) -/

/-- Python regex `\w` (restricted to ASCII, which the repository
exercises). -/
def isWordChar (c : Char) : Bool := c.isAlphanum || c = '_'

/-- Lookahead `(?=\w+:)`: at least one word character followed by a
colon. -/
def wordColonAhead (cs : Str) : Bool :=
  match cs.dropWhile isWordChar with
  | ':' :: _ => !(cs.takeWhile isWordChar).isEmpty
  | _ => false

/-- `re.split` with the zero-width lookahead: the splitting newline is
consumed, the looked-ahead header is not. -/
def splitSectionsAux : Str → Str → List Str
  | [], cur => [cur.reverse]
  | '\n' :: rest, cur =>
    if wordColonAhead rest then cur.reverse :: splitSectionsAux rest []
    else splitSectionsAux rest ('\n' :: cur)
  | c :: rest, cur => splitSectionsAux rest (c :: cur)

/-- Split the text into sections at every newline that is immediately
followed by a bare word and a colon. -/
def splitSections (text : Str) : List Str := splitSectionsAux text []

/-- Fallback extraction when structured parsing fails: one key per
section that contains a colon and at least one content line.  The key is
`lines[0].replace(colon, empty).strip()` — every colon removed from the
whole header line, then trimmed. -/
def extract_structured_data (text : Str) : PyVal :=
  PyVal.dict ((splitSections text).foldl (fun result sec =>
    if ':' ∈ sec then
      match (pyStrip sec).splitOn '\n' with
      | [] => result
      | first :: rest =>
        let header := pyStrip (first.filter (fun c => decide (c ≠ ':')))
        let content := rest.foldl (fun acc line =>
          let l := pyStrip line
          if !l.isEmpty && decide (l.head? ≠ some '#') then acc ++ [l]
          else acc) []
        if content.isEmpty then result
        else setKey result header (PyVal.list (content.map PyVal.str))
    else result) [])

/-- `YAMLProcessor.parse_yaml_from_text`, with the external
`yaml.safe_load` collaborator passed in as `loader` (an exception-free
result is `Except.ok`, a `YAMLError` is `Except.error`).  The source line
is `return yaml.safe_load(yaml_text) or empty-dict`, so a falsy parse
result becomes the empty mapping and a truthy one — whatever its shape —
is returned unchanged; a parse error falls back to
`extract_structured_data` applied to the original text. -/
def parse_yaml_from_text (loader : Str → Except Unit PyVal) (text : Str) :
    PyVal :=
  match loader (yaml_body text) with
  | Except.ok v => if v.truthy then v else PyVal.dict []
  | Except.error _ => extract_structured_data text

/-! ## Claim C1: the parser result -/

/-- Models `yaml.safe_load` on the counterexample input: the YAML
document consisting of the single sequence item `a` parses successfully
to a Python list holding one string (a truthy non-mapping). -/
def seqLoader : Str → Except Unit PyVal :=
  fun _ => Except.ok (PyVal.list [PyVal.str ['a']])

/-- C1 counterexample: on the raw reply consisting of a YAML sequence,
structured parsing succeeds with a non-mapping value, and the parser
returns that list unchanged — not the empty mapping claimed.  So the
parser does not always return a mapping. -/
theorem parse_yaml_nonmapping_counterexample :
    parse_yaml_from_text seqLoader ['-', ' ', 'a'] =
      PyVal.list [PyVal.str ['a']] ∧
    isDict (PyVal.list [PyVal.str ['a']]) = false :=
  ⟨rfl, rfl⟩

/-- C1 (amended): the parser never raises and behaves as follows.  When
structured parsing of the parser body succeeds, the parsed value is
returned if truthy — even when it is not a mapping — and the empty
mapping is returned if falsy (null, empty).  When structured parsing
fails, the heuristic fallback applied to the original text is returned,
and that fallback is always a mapping.  Consequently the result is a
mapping unless structured parsing succeeded with a truthy non-mapping,
which is passed through unchanged. -/
theorem parse_yaml_result_characterization
    (loader : Str → Except Unit PyVal) (text : Str) :
    (match loader (yaml_body text) with
     | Except.ok v =>
         parse_yaml_from_text loader text = if v.truthy then v else PyVal.dict []
     | Except.error _ =>
         parse_yaml_from_text loader text = extract_structured_data text) ∧
    isDict (extract_structured_data text) = true ∧
    (isDict (parse_yaml_from_text loader text) = true ∨
      ∃ v, loader (yaml_body text) = Except.ok v ∧ v.truthy = true ∧
        parse_yaml_from_text loader text = v) := by
  refine ⟨?_, rfl, ?_⟩
  · cases h : loader (yaml_body text) with
    | error e => simp [parse_yaml_from_text, h]
    | ok v => simp [parse_yaml_from_text, h]
  · cases h : loader (yaml_body text) with
    | error e =>
        left
        simp [parse_yaml_from_text, h, extract_structured_data, isDict]
    | ok v =>
        by_cases ht : v.truthy
        · right
          exact ⟨v, rfl, ht, by simp [parse_yaml_from_text, h, ht]⟩
        · left
          simp [parse_yaml_from_text, h, ht, isDict]

/-! ## Claim C8: the fallback section keys -/

/-- C8 counterexample: on the input `products: yes` newline `item1`, the
stored key is the whole header line with its colon removed
(`products yes`), not the text before the first colon trimmed
(`products`), refuting the claim as stated. -/
theorem extract_structured_data_key_counterexample :
    extract_structured_data
        ['p', 'r', 'o', 'd', 'u', 'c', 't', 's', ':', ' ', 'y', 'e', 's',
         '\n', 'i', 't', 'e', 'm', '1'] =
      PyVal.dict [(['p', 'r', 'o', 'd', 'u', 'c', 't', 's', ' ', 'y', 'e', 's'],
        PyVal.list [PyVal.str ['i', 't', 'e', 'm', '1']])] ∧
    pyStrip ((['p', 'r', 'o', 'd', 'u', 'c', 't', 's', ':', ' ', 'y', 'e', 's'] :
        Str).takeWhile (fun c => decide (c ≠ ':'))) =
      ['p', 'r', 'o', 'd', 'u', 'c', 't', 's'] ∧
    (['p', 'r', 'o', 'd', 'u', 'c', 't', 's', ' ', 'y', 'e', 's'] : Str) ≠
      ['p', 'r', 'o', 'd', 'u', 'c', 't', 's'] :=
  ⟨rfl, by decide, by decide⟩

/-- Claim-side description of one fallback section, following the
amended claim: an entry is produced iff the section contains a colon and
has at least one content line; the key is the header line with every
colon removed and then trimmed; the value is the list of trimmed,
non-empty lines after the header that do not start with a comment
character. -/
def sectionEntry (sec : Str) : Option (Str × PyVal) :=
  if ':' ∈ sec then
    match (pyStrip sec).splitOn '\n' with
    | [] => Option.none
    | first :: rest =>
      let content := (rest.map pyStrip).filter
        (fun l => !l.isEmpty && decide (l.head? ≠ some '#'))
      if content.isEmpty then Option.none
      else some (pyStrip (first.filter (fun c => decide (c ≠ ':'))),
        PyVal.list (content.map PyVal.str))
  else Option.none

/-- Accumulating a filtered, mapped element per loop iteration is the
same as appending the filtered map of the whole list. -/
theorem foldl_filter_append (g : Str → Str) (p : Str → Bool) :
    ∀ (rest : List Str) (acc : List Str),
      rest.foldl (fun acc line => if p (g line) then acc ++ [g line] else acc)
          acc =
        acc ++ (rest.map g).filter p := by
  intro rest
  induction rest with
  | nil => intro acc; simp
  | cons x xs ih =>
      intro acc
      simp only [List.foldl_cons, List.map_cons, List.filter_cons]
      by_cases hp : p (g x)
      · rw [if_pos hp, ih]
        simp [hp]
      · rw [if_neg hp, ih]
        simp [hp]

/-- C8 (amended): for every section produced by splitting at a newline
immediately followed by a bare word and colon, the key stored in the
result mapping is the whole header line with every colon removed and
then trimmed (not just the text before the first colon); every
non-empty, non-comment line after the header, trimmed, becomes an
element of the value list; and sections lacking a colon or lacking
content lines are dropped. -/
theorem extract_structured_data_sections (text : Str) :
    extract_structured_data text =
      PyVal.dict ((splitSections text).foldl (fun result sec =>
        match sectionEntry sec with
        | some kv => setKey result kv.1 kv.2
        | Option.none => result) []) := by
  unfold extract_structured_data
  congr 1
  congr 1
  funext result sec
  by_cases hc : ':' ∈ sec
  · simp only [sectionEntry, if_pos hc]
    cases hsp : (pyStrip sec).splitOn '\n' with
    | nil => rfl
    | cons first rest =>
        have hcontent : rest.foldl (fun acc line =>
            let l := pyStrip line
            if !l.isEmpty && decide (l.head? ≠ some '#') then acc ++ [l]
            else acc) [] =
            (rest.map pyStrip).filter
              (fun l => !l.isEmpty && decide (l.head? ≠ some '#')) := by
          simpa using foldl_filter_append pyStrip
            (fun l => !l.isEmpty && decide (l.head? ≠ some '#')) rest []
        simp only [hcontent]
        by_cases he : ((rest.map pyStrip).filter
            (fun l => !l.isEmpty && decide (l.head? ≠ some '#'))).isEmpty = true
        · simp only [he]
          rfl
        · have he' : ((rest.map pyStrip).filter
              (fun l => !l.isEmpty && decide (l.head? ≠ some '#'))).isEmpty
              = false := by
            simpa using he
          simp only [he']
          rfl
  · simp [sectionEntry, hc]

/-! ## YAMLProcessor.merge_yaml_results (src/src/text_processor.py, 126-144) -/

/-- Processing of one `(key, value)` pair of one input mapping: ensure
the accumulator has the key (initialised to the empty list), then extend
with a list value, append a truthy non-list value, and skip a falsy
value. -/
def mergePair (merged : List (Str × List PyVal)) (kv : Str × PyVal) :
    List (Str × List PyVal) :=
  let m := if hasKey merged kv.1 then merged else merged ++ [(kv.1, [])]
  match kv.2 with
  | PyVal.list l => updKey m kv.1 (fun cur => cur ++ l)
  | v => if v.truthy then updKey m kv.1 (fun cur => cur ++ [v]) else m

/-- Processing of one element of the input sequence: a mapping
contributes all its pairs in order, anything else is skipped. -/
def mergeInto (merged : List (Str × List PyVal)) : PyVal →
    List (Str × List PyVal)
  | PyVal.dict items => items.foldl mergePair merged
  | _ => merged

/-- `YAMLProcessor.merge_yaml_results`. -/
def merge_yaml_results (results : List PyVal) : List (Str × List PyVal) :=
  results.foldl mergeInto []

/-- The elements a single value contributes to its category accumulator:
a list contributes its elements, a truthy non-list value contributes
itself, a falsy value contributes nothing. -/
def valueContrib : PyVal → List PyVal
  | PyVal.list l => l
  | v => if v.truthy then [v] else []

/-- The elements one `(key, value)` pair contributes to category `k`. -/
def pairContrib (k : Str) (kv : Str × PyVal) : List PyVal :=
  if kv.1 = k then valueContrib kv.2 else []

/-- The elements one input-sequence element contributes to category
`k`. -/
def dictContrib (k : Str) : PyVal → List PyVal
  | PyVal.dict items => (items.map (pairContrib k)).flatten
  | _ => []

/-- Does this input-sequence element mention category `k`. -/
def hasCat (k : Str) : PyVal → Bool
  | PyVal.dict items => hasKey items k
  | _ => false

theorem lookupKey_eq_none_iff {α : Type} (d : List (Str × α)) (k : Str) :
    lookupKey d k = Option.none ↔ hasKey d k = false := by
  induction d with
  | nil => exact ⟨fun _ => rfl, fun _ => rfl⟩
  | cons p rest ih =>
      simp only [lookupKey, hasKey] at ih ⊢
      by_cases hp : p.1 = k
      · rw [List.find?_cons_of_pos _ (by simpa using hp)]
        simp [hp]
      · rw [List.find?_cons_of_neg _ (by simpa using hp)]
        simp only [List.any_cons, Bool.or_eq_false_iff]
        constructor
        · intro h
          exact ⟨by simpa using hp, (ih.mp h)⟩
        · intro h
          exact ih.mpr h.2

theorem lookupKey_updKey_self {α : Type} (d : List (Str × α)) (k : Str)
    (f : α → α) : lookupKey (updKey d k f) k = (lookupKey d k).map f := by
  induction d with
  | nil => rfl
  | cons p rest ih =>
      by_cases hp : p.1 = k
      · simp [updKey, lookupKey, hp, List.find?_cons_of_pos]
      · simp only [updKey, List.map_cons, if_neg hp]
        simp only [lookupKey] at ih ⊢
        rw [List.find?_cons_of_neg _ (by simpa using hp),
          List.find?_cons_of_neg _ (by simpa using hp)]
        exact ih

theorem lookupKey_updKey_ne {α : Type} (d : List (Str × α)) (k k2 : Str)
    (f : α → α) (h : k2 ≠ k) : lookupKey (updKey d k2 f) k = lookupKey d k := by
  induction d with
  | nil => rfl
  | cons p rest ih =>
      by_cases hp : p.1 = k2
      · have hpk : ¬ (k2 = k) := h
        simp only [updKey, List.map_cons, if_pos hp]
        simp only [lookupKey] at ih ⊢
        rw [List.find?_cons_of_neg _ (by simpa using hpk),
          List.find?_cons_of_neg _ (by simp [hp, hpk])]
        exact ih
      · simp only [updKey, List.map_cons, if_neg hp]
        by_cases hk : p.1 = k
        · simp [lookupKey, List.find?_cons_of_pos, hk]
        · simp only [lookupKey] at ih ⊢
          rw [List.find?_cons_of_neg _ (by simpa using hk),
            List.find?_cons_of_neg _ (by simpa using hk)]
          exact ih

theorem lookupKey_append_ne {α : Type} (d : List (Str × α)) (k k2 : Str)
    (v : α) (h : k2 ≠ k) : lookupKey (d ++ [(k2, v)]) k = lookupKey d k := by
  induction d with
  | nil => simp [lookupKey, List.find?_cons_of_neg, h]
  | cons p rest ih =>
      by_cases hp : p.1 = k
      · simp [lookupKey, List.find?_cons_of_pos, hp]
      · simp only [lookupKey] at ih ⊢
        rw [List.cons_append, List.find?_cons_of_neg _ (by simpa using hp),
          List.find?_cons_of_neg _ (by simpa using hp)]
        exact ih

theorem lookupKey_append_self {α : Type} (d : List (Str × α)) (k : Str)
    (v : α) (h : hasKey d k = false) : lookupKey (d ++ [(k, v)]) k = some v := by
  induction d with
  | nil => simp [lookupKey]
  | cons p rest ih =>
      simp only [hasKey, List.any_cons, Bool.or_eq_false_iff] at h
      obtain ⟨h1, h2⟩ := h
      simp only [lookupKey, List.cons_append]
      rw [List.find?_cons_of_neg _ (by simpa using h1)]
      exact ih h2

theorem lookupKey_isSome_of_hasKey {α : Type} (d : List (Str × α)) (k : Str)
    (h : hasKey d k = true) : ∃ cur, lookupKey d k = some cur := by
  cases hl : lookupKey d k with
  | none => rw [lookupKey_eq_none_iff] at hl; rw [h] at hl; exact absurd hl (by simp)
  | some cur => exact ⟨cur, rfl⟩

/-- Effect of one pair on the category-`k` accumulator. -/
theorem lookupKey_mergePair (merged : List (Str × List PyVal))
    (kv : Str × PyVal) (k : Str) :
    lookupKey (mergePair merged kv) k =
      match lookupKey merged k with
      | some cur => some (cur ++ pairContrib k kv)
      | Option.none =>
          if kv.1 = k then some (pairContrib k kv) else Option.none := by
  obtain ⟨k2, v⟩ := kv
  by_cases hk : k2 = k
  · subst hk
    by_cases hhas : hasKey merged k2 = true
    · obtain ⟨cur, hcur⟩ := lookupKey_isSome_of_hasKey merged k2 hhas
      simp only [mergePair]
      rw [if_pos hhas]
      cases v with
      | list l =>
          rw [lookupKey_updKey_self, hcur]
          simp [pairContrib, valueContrib, hcur]
      | pyNone => simp [PyVal.truthy, hcur, pairContrib, valueContrib]
      | pyBool b =>
          cases b <;>
            simp [PyVal.truthy, hcur, pairContrib, valueContrib,
              lookupKey_updKey_self]
      | pyInt n =>
          by_cases hn : n = 0 <;>
            simp [PyVal.truthy, hn, hcur, pairContrib, valueContrib,
              lookupKey_updKey_self]
      | str s =>
          cases s <;>
            simp [PyVal.truthy, hcur, pairContrib, valueContrib,
              lookupKey_updKey_self]
      | dict d2 =>
          cases d2 <;>
            simp [PyVal.truthy, hcur, pairContrib, valueContrib,
              lookupKey_updKey_self]
    · have hnone : lookupKey merged k2 = Option.none := by
        rw [lookupKey_eq_none_iff]
        simpa using hhas
      have happ := lookupKey_append_self merged k2 ([] : List PyVal)
        (by simpa using hhas)
      simp only [mergePair]
      rw [if_neg hhas]
      cases v with
      | list l =>
          rw [lookupKey_updKey_self, happ]
          simp [pairContrib, valueContrib, hnone]
      | pyNone => simp [PyVal.truthy, happ, hnone, pairContrib, valueContrib]
      | pyBool b =>
          cases b <;>
            simp [PyVal.truthy, happ, hnone, pairContrib, valueContrib,
              lookupKey_updKey_self]
      | pyInt n =>
          by_cases hn : n = 0 <;>
            simp [PyVal.truthy, hn, happ, hnone, pairContrib, valueContrib,
              lookupKey_updKey_self]
      | str s =>
          cases s <;>
            simp [PyVal.truthy, happ, hnone, pairContrib, valueContrib,
              lookupKey_updKey_self]
      | dict d2 =>
          cases d2 <;>
            simp [PyVal.truthy, happ, hnone, pairContrib, valueContrib,
              lookupKey_updKey_self]
  · have hm : lookupKey (if hasKey merged k2 = true then merged
        else merged ++ [(k2, ([] : List PyVal))]) k = lookupKey merged k := by
      split_ifs
      · rfl
      · exact lookupKey_append_ne merged k k2 [] hk
    cases v with
    | list l =>
        simp only [mergePair]
        rw [lookupKey_updKey_ne _ _ _ _ hk, hm]
        cases hlk : lookupKey merged k <;> simp [pairContrib, hk]
    | pyNone =>
        simp only [mergePair, PyVal.truthy, Bool.false_eq_true, if_false]
        rw [hm]
        cases hlk : lookupKey merged k <;> simp [pairContrib, hk]
    | pyBool b =>
        cases b with
        | false =>
            simp only [mergePair, PyVal.truthy, Bool.false_eq_true, if_false]
            rw [hm]
            cases hlk : lookupKey merged k <;> simp [pairContrib, hk]
        | true =>
            simp only [mergePair, PyVal.truthy, if_true]
            rw [lookupKey_updKey_ne _ _ _ _ hk, hm]
            cases hlk : lookupKey merged k <;> simp [pairContrib, hk]
    | pyInt n =>
        by_cases hn : n = 0
        · subst hn
          simp only [mergePair, PyVal.truthy, ne_eq, not_true_eq_false,
            decide_False, Bool.false_eq_true, if_false]
          rw [hm]
          cases hlk : lookupKey merged k <;> simp [pairContrib, hk]
        · have hd : decide (n ≠ 0) = true := by simp [hn]
          simp only [mergePair, PyVal.truthy, hd, if_true]
          rw [lookupKey_updKey_ne _ _ _ _ hk, hm]
          cases hlk : lookupKey merged k <;> simp [pairContrib, hk]
    | str s =>
        cases s with
        | nil =>
            simp only [mergePair, PyVal.truthy, List.isEmpty_nil,
              Bool.not_true, Bool.false_eq_true, if_false]
            rw [hm]
            cases hlk : lookupKey merged k <;> simp [pairContrib, hk]
        | cons c cs =>
            simp only [mergePair, PyVal.truthy, List.isEmpty_cons,
              Bool.not_false, if_true]
            rw [lookupKey_updKey_ne _ _ _ _ hk, hm]
            cases hlk : lookupKey merged k <;> simp [pairContrib, hk]
    | dict d2 =>
        cases d2 with
        | nil =>
            simp only [mergePair, PyVal.truthy, List.isEmpty_nil,
              Bool.not_true, Bool.false_eq_true, if_false]
            rw [hm]
            cases hlk : lookupKey merged k <;> simp [pairContrib, hk]
        | cons p ps =>
            simp only [mergePair, PyVal.truthy, List.isEmpty_cons,
              Bool.not_false, if_true]
            rw [lookupKey_updKey_ne _ _ _ _ hk, hm]
            cases hlk : lookupKey merged k <;> simp [pairContrib, hk]

/-- Effect of one whole input mapping on the category-`k` accumulator. -/
theorem lookupKey_foldl_mergePair (k : Str) :
    ∀ (items : List (Str × PyVal)) (merged : List (Str × List PyVal)),
      lookupKey (items.foldl mergePair merged) k =
        match lookupKey merged k with
        | some cur => some (cur ++ (items.map (pairContrib k)).flatten)
        | Option.none =>
            if hasKey items k then some ((items.map (pairContrib k)).flatten)
            else Option.none := by
  intro items
  induction items with
  | nil =>
      intro merged
      cases hlk : lookupKey merged k <;> simp [hasKey, hlk]
  | cons kv rest ih =>
      intro merged
      rw [List.foldl_cons, ih (mergePair merged kv), lookupKey_mergePair]
      cases hlk : lookupKey merged k with
      | none =>
          by_cases hk : kv.1 = k
          · simp [hk, hasKey, List.any_cons]
          · have hcond : (decide (kv.1 = k) || rest.any fun p => decide (p.1 = k))
                = (rest.any fun p => decide (p.1 = k)) := by
              cases hb : decide (kv.1 = k)
              · simp
              · exact absurd (of_decide_eq_true hb) hk
            simp only [hasKey, List.any_cons, pairContrib, hcond]
            simp [pairContrib, hk]
      | some cur =>
          simp

/-- A mapping that does not mention category `k` contributes nothing to
it. -/
theorem flatten_pairContrib_eq_nil (k : Str) :
    ∀ (items : List (Str × PyVal)), hasKey items k = false →
      (items.map (pairContrib k)).flatten = [] := by
  intro items
  induction items with
  | nil => intro _; rfl
  | cons kv rest ih =>
      intro h
      simp only [hasKey, List.any_cons, Bool.or_eq_false_iff] at h
      have h1 : ¬ kv.1 = k := by simpa using h.1
      simp [pairContrib, h1, ih (by simp [hasKey, h.2])]

/-- Effect of one input-sequence element on the category-`k`
accumulator. -/
theorem lookupKey_mergeInto (merged : List (Str × List PyVal)) (r : PyVal)
    (k : Str) :
    lookupKey (mergeInto merged r) k =
      match lookupKey merged k with
      | some cur => some (cur ++ dictContrib k r)
      | Option.none =>
          if hasCat k r then some (dictContrib k r) else Option.none := by
  cases r <;>
    simp only [mergeInto, dictContrib, hasCat, lookupKey_foldl_mergePair] <;>
    cases hlk : lookupKey merged k <;> simp

/-- Effect of the whole input sequence on the category-`k`
accumulator. -/
theorem lookupKey_merge_foldl (k : Str) :
    ∀ (rs : List PyVal) (merged : List (Str × List PyVal)),
      lookupKey (rs.foldl mergeInto merged) k =
        match lookupKey merged k with
        | some cur => some (cur ++ (rs.map (dictContrib k)).flatten)
        | Option.none =>
            if rs.any (hasCat k) then some ((rs.map (dictContrib k)).flatten)
            else Option.none := by
  intro rs
  induction rs with
  | nil =>
      intro merged
      cases hlk : lookupKey merged k <;> simp [hlk]
  | cons r rest ih =>
      intro rest2
      rw [List.foldl_cons, ih (mergeInto rest2 r), lookupKey_mergeInto]
      cases hlk : lookupKey rest2 k with
      | none =>
          by_cases hk : hasCat k r
          · simp [hk, List.any_cons]
          · have hdc : dictContrib k r = [] := by
              cases r with
              | dict items =>
                  refine flatten_pairContrib_eq_nil k items ?_
                  simpa [hasCat] using hk
              | pyNone => rfl
              | pyBool b => rfl
              | pyInt n => rfl
              | str s => rfl
              | list l => rfl
            simp [hk, List.any_cons, hdc]
      | some cur => simp

/-- C4: every `(category, value)` pair of every input mapping is
processed in sequence order — a list value contributes its elements, a
truthy non-list value contributes itself, a falsy value contributes
nothing, and a category mentioned anywhere is present in the output
(worst case with an empty list); the two concrete example merges of the
claim evaluate as stated. -/
theorem merge_yaml_results_concat :
    (∀ (rs : List PyVal) (k : Str),
      lookupKey (merge_yaml_results rs) k =
        if rs.any (hasCat k) then some ((rs.map (dictContrib k)).flatten)
        else Option.none) ∧
    merge_yaml_results
        [PyVal.dict [(['x'], PyVal.list [PyVal.str ['a']])],
         PyVal.dict [(['x'], PyVal.list [PyVal.str ['b'], PyVal.str ['c']])],
         PyVal.dict [(['x'], PyVal.str ['d'])]] =
      [(['x'], [PyVal.str ['a'], PyVal.str ['b'], PyVal.str ['c'],
        PyVal.str ['d']])] ∧
    merge_yaml_results
        [PyVal.dict [(['x'], PyVal.list [])],
         PyVal.dict [(['x'], PyVal.str [])],
         PyVal.dict [(['x'], PyVal.pyNone)]] =
      [(['x'], [])] := by
  refine ⟨fun rs k => ?_, rfl, rfl⟩
  rw [merge_yaml_results, lookupKey_merge_foldl]
  rfl

/-- C9: `merge_yaml_results` is total over arbitrary sequences of Python
values: every non-mapping element is skipped entirely — the output
equals the merge of just the mapping elements — and a mixed sequence of
a string, an integer, null, a mapping, and a list merges without error
to the contribution of the mapping alone. -/
theorem merge_yaml_results_skips_nonmappings :
    (∀ rs : List PyVal,
      merge_yaml_results rs = merge_yaml_results (rs.filter isDict)) ∧
    merge_yaml_results
        [PyVal.str ['s'], PyVal.pyInt 3, PyVal.pyNone,
         PyVal.dict [(['x'], PyVal.str ['y'])], PyVal.list []] =
      [(['x'], [PyVal.str ['y']])] := by
  constructor
  · intro rs
    have h : ∀ (rs : List PyVal) (merged : List (Str × List PyVal)),
        rs.foldl mergeInto merged = (rs.filter isDict).foldl mergeInto merged := by
      intro rs
      induction rs with
      | nil => intro merged; rfl
      | cons r rest ih =>
          intro merged
          cases r <;> simp [mergeInto, isDict, List.filter_cons, ih]
    exact h rs []
  · rfl

/-! ## DocumentRAGExtractor.extract_information (src/extract.py, 153-216)

The orchestrator is embedded with its external collaborators as explicit
parameters: the prompt formatter (`PromptsManager.format_prompt`), the
model client (`llm.generate`, whose raised exceptions are
`Except.error`), the `yaml.safe_load` collaborator used by the response
parser, the chunker (`TextProcessor.chunk_text`, analysed separately
above), and the configuration values `extraction_schema` keys and
`min_chunk_length`.  The `extraction_metadata` entry of the Python
result dict (run metadata only, never a category list) is omitted; the
category entries are modelled exactly. -/

structure OrchestratorCfg where
  extractionTypes : List Str
  minChunkLength : Int
  formatPrompt : Str → Str → Str
  llm : Str → Except Unit Str
  loader : Str → Except Unit PyVal
  chunker : Str → List Str

/-- The per-chunk body of the orchestrator loop: skip chunks below the
configured minimum length; call the model inside the per-chunk handler
(a raised exception yields no contribution); parse the reply; contribute
`parsed_data[extraction_type]` when the parsed value is truthy and holds
the category key.  When the parsed value is not a mapping, the
membership test is false or the subscript raises a `TypeError`, which
the per-chunk handler swallows — either way there is no contribution. -/
def process_chunk (cfg : OrchestratorCfg) (etype chunk : Str) : Option PyVal :=
  if (chunk.length : Int) < cfg.minChunkLength then Option.none
  else
    match cfg.llm (cfg.formatPrompt etype chunk) with
    | Except.error _ => Option.none
    | Except.ok response =>
      match parse_yaml_from_text cfg.loader response with
      | PyVal.dict items =>
          if (PyVal.dict items).truthy && hasKey items etype then
            lookupKey items etype
          else Option.none
      | _ => Option.none

/-- `results[extraction_type] = []` for every configured category. -/
def init_results (ts : List Str) : List (Str × List PyVal) :=
  ts.foldl (fun acc t => setKey acc t ([] : List PyVal)) []

/-- The per-category body of the per-document loop: collect the
contributions of all chunks, merge them (each wrapped as a singleton
mapping), and extend `results[extraction_type]` when the merged mapping
holds the category. -/
def etype_step (cfg : OrchestratorCfg) (chunks : List Str)
    (results : List (Str × List PyVal)) (etype : Str) :
    List (Str × List PyVal) :=
  let typeResults := chunks.filterMap (process_chunk cfg etype)
  if typeResults.isEmpty then results
  else
    match lookupKey (merge_yaml_results
        (typeResults.map (fun r => PyVal.dict [(etype, r)]))) etype with
    | some l => updKey results etype (fun cur => cur ++ l)
    | Option.none => results

/-- The per-document body of the orchestrator: chunk the text, then run
every category over the chunks. -/
def doc_step (cfg : OrchestratorCfg) (results : List (Str × List PyVal))
    (text : Str) : List (Str × List PyVal) :=
  cfg.extractionTypes.foldl (etype_step cfg (cfg.chunker text)) results

/-- `DocumentRAGExtractor.extract_information` (category entries). -/
def extract_information (cfg : OrchestratorCfg) (texts : List Str) :
    List (Str × List PyVal) :=
  texts.foldl (doc_step cfg) (init_results cfg.extractionTypes)

/-- What one chunk contributes to the final aggregate of a category:
nothing when it is skipped or fails, otherwise the merge contribution of
its parsed value. -/
def chunkContribution (cfg : OrchestratorCfg) (etype chunk : Str) :
    List PyVal :=
  match process_chunk cfg etype chunk with
  | some v => valueContrib v
  | Option.none => []

/-- What one document contributes to the final aggregate of a category:
its chunk contributions in chunk order. -/
def docContribution (cfg : OrchestratorCfg) (etype text : Str) : List PyVal :=
  ((cfg.chunker text).map (chunkContribution cfg etype)).flatten

theorem lookupKey_setKey_self {α : Type} (d : List (Str × α)) (k : Str)
    (v : α) : lookupKey (setKey d k v) k = some v := by
  unfold setKey
  split_ifs with hhas
  · obtain ⟨cur, hcur⟩ := lookupKey_isSome_of_hasKey d k hhas
    rw [lookupKey_updKey_self, hcur]
    rfl
  · exact lookupKey_append_self d k v (by simpa using hhas)

theorem lookupKey_setKey_ne {α : Type} (d : List (Str × α)) (k k2 : Str)
    (v : α) (h : k2 ≠ k) : lookupKey (setKey d k2 v) k = lookupKey d k := by
  unfold setKey
  split_ifs with hhas
  · exact lookupKey_updKey_ne d k k2 _ h
  · exact lookupKey_append_ne d k k2 v h

/-- Merging singleton mappings `[(etype, r)]` yields, under `etype`, the
concatenated merge contributions of the values, as soon as there is at
least one result. -/
theorem lookupKey_merge_singletons (etype : Str) (trs : List PyVal) :
    lookupKey (merge_yaml_results
        (trs.map (fun r => PyVal.dict [(etype, r)]))) etype =
      if trs.isEmpty then Option.none
      else some ((trs.map valueContrib).flatten) := by
  rw [merge_yaml_results, lookupKey_merge_foldl]
  have hlk : lookupKey ([] : List (Str × List PyVal)) etype = Option.none := rfl
  rw [hlk]
  cases trs with
  | nil => rfl
  | cons r rest =>
      have hany : ((r :: rest).map
          (fun r => PyVal.dict [(etype, r)])).any (hasCat etype) = true := by
        simp [hasCat, hasKey, List.any_cons]
      rw [hany]
      have hmap : ∀ (l : List PyVal),
          (l.map (fun r => PyVal.dict [(etype, r)])).map (dictContrib etype) =
            l.map valueContrib := by
        intro l
        rw [List.map_map]
        apply List.map_congr_left
        intro r _
        simp [dictContrib, pairContrib]
      simp [hmap, dictContrib, pairContrib]

theorem process_chunk_none_of_llm_error (cfg : OrchestratorCfg)
    (etype chunk : Str)
    (h : cfg.llm (cfg.formatPrompt etype chunk) = Except.error ()) :
    process_chunk cfg etype chunk = Option.none := by
  unfold process_chunk
  split_ifs with hlen
  · rfl
  · rw [h]

/-- Effect of one category pass on its own aggregate entry. -/
theorem etype_step_lookup_self (cfg : OrchestratorCfg) (chunks : List Str)
    (results : List (Str × List PyVal)) (etype : Str) :
    lookupKey (etype_step cfg chunks results etype) etype =
      (lookupKey results etype).map (fun cur =>
        cur ++ ((chunks.filterMap (process_chunk cfg etype)).map
          valueContrib).flatten) := by
  unfold etype_step
  by_cases he : (chunks.filterMap (process_chunk cfg etype)).isEmpty = true
  · rw [if_pos he]
    have hnil : chunks.filterMap (process_chunk cfg etype) = [] := by
      simpa [List.isEmpty_iff] using he
    rw [hnil]
    cases hlk : lookupKey results etype <;> simp [hlk]
  · rw [if_neg he, lookupKey_merge_singletons, if_neg he,
      lookupKey_updKey_self]

/-- A category pass leaves the entries of other categories unchanged. -/
theorem etype_step_lookup_ne (cfg : OrchestratorCfg) (chunks : List Str)
    (results : List (Str × List PyVal)) (etype etype' : Str)
    (h : etype ≠ etype') :
    lookupKey (etype_step cfg chunks results etype) etype' =
      lookupKey results etype' := by
  simp only [etype_step]
  by_cases he : (chunks.filterMap (process_chunk cfg etype)).isEmpty = true
  · rw [if_pos he]
  · rw [if_neg he]
    cases hm : lookupKey (merge_yaml_results
        (((chunks.filterMap (process_chunk cfg etype))).map
          (fun r => PyVal.dict [(etype, r)]))) etype with
    | none => rfl
    | some l => exact lookupKey_updKey_ne results etype' etype _ h

/-- Categories not in the list are untouched by the per-document pass. -/
theorem foldl_etype_step_not_mem (cfg : OrchestratorCfg) (chunks : List Str)
    (etype : Str) :
    ∀ (ets : List Str) (results : List (Str × List PyVal)),
      etype ∉ ets →
      lookupKey (ets.foldl (etype_step cfg chunks) results) etype =
        lookupKey results etype := by
  intro ets
  induction ets with
  | nil => intro results _; rfl
  | cons e rest ih =>
      intro results hmem
      rw [List.foldl_cons, ih _ (fun hr => hmem (List.mem_cons_of_mem e hr)),
        etype_step_lookup_ne cfg chunks results e etype
          (fun he => hmem (he ▸ List.mem_cons_self e rest))]

/-- Effect of the per-document pass on a category that occurs exactly
once in the category list. -/
theorem foldl_etype_step_mem (cfg : OrchestratorCfg) (chunks : List Str)
    (etype : Str) :
    ∀ (ets : List Str) (results : List (Str × List PyVal)),
      etype ∈ ets → ets.Nodup →
      lookupKey (ets.foldl (etype_step cfg chunks) results) etype =
        (lookupKey results etype).map (fun cur =>
          cur ++ ((chunks.filterMap (process_chunk cfg etype)).map
            valueContrib).flatten) := by
  intro ets
  induction ets with
  | nil => intro results hmem _; exact absurd hmem (List.not_mem_nil etype)
  | cons e rest ih =>
      intro results hmem hnd
      rw [List.foldl_cons]
      rcases List.mem_cons.mp hmem with rfl | hmem2
      · have hnotin : etype ∉ rest := (List.nodup_cons.mp hnd).1
        rw [foldl_etype_step_not_mem cfg chunks etype rest _ hnotin,
          etype_step_lookup_self]
      · have hne : e ≠ etype := by
          rintro rfl
          exact (List.nodup_cons.mp hnd).1 hmem2
        rw [ih _ hmem2 (List.nodup_cons.mp hnd).2,
          etype_step_lookup_ne cfg chunks results e etype hne]

theorem lookupKey_init_results (etype : Str) :
    ∀ (ts : List Str) (acc : List (Str × List PyVal)),
      (etype ∈ ts ∨ lookupKey acc etype = some []) →
      lookupKey (ts.foldl (fun acc t => setKey acc t ([] : List PyVal)) acc)
        etype = some [] := by
  intro ts
  induction ts with
  | nil =>
      intro acc h
      rcases h with h | h
      · exact absurd h (List.not_mem_nil etype)
      · exact h
  | cons t rest ih =>
      intro acc h
      rw [List.foldl_cons]
      apply ih
      by_cases ht : t = etype
      · subst ht
        exact Or.inr (lookupKey_setKey_self acc t [])
      · rcases h with hmem | hacc
        · rcases List.mem_cons.mp hmem with rfl | hmem2
          · exact absurd rfl ht
          · exact Or.inl hmem2
        · exact Or.inr ((lookupKey_setKey_ne acc etype t [] ht).trans hacc)

/-- Characterization of the final aggregate of one category: the
concatenation, in document-then-chunk order, of the per-chunk merge
contributions. -/
theorem extract_information_lookup (cfg : OrchestratorCfg) (texts : List Str)
    (etype : Str) (h1 : cfg.extractionTypes.Nodup)
    (h2 : etype ∈ cfg.extractionTypes) :
    lookupKey (extract_information cfg texts) etype =
      some ((texts.map (docContribution cfg etype)).flatten) := by
  have houter : ∀ (texts : List Str) (results : List (Str × List PyVal))
      (cur : List PyVal), lookupKey results etype = some cur →
      lookupKey (texts.foldl (doc_step cfg) results) etype =
        some (cur ++ (texts.map (docContribution cfg etype)).flatten) := by
    intro texts
    induction texts with
    | nil => intro results cur hcur; simpa using hcur
    | cons t ts ih =>
        intro results cur hcur
        rw [List.foldl_cons]
        have hstep : lookupKey (doc_step cfg results t) etype =
            some (cur ++ docContribution cfg etype t) := by
          rw [doc_step, foldl_etype_step_mem cfg (cfg.chunker t) etype
            cfg.extractionTypes results h2 h1, hcur]
          have hdc : docContribution cfg etype t =
              (((cfg.chunker t).filterMap (process_chunk cfg etype)).map
                valueContrib).flatten := by
            rw [docContribution]
            induction cfg.chunker t with
            | nil => rfl
            | cons c cs ihc =>
                rw [List.map_cons, List.flatten_cons, ihc, List.filterMap_cons]
                cases hpc : process_chunk cfg etype c with
                | none => simp [chunkContribution, hpc]
                | some v => simp [chunkContribution, hpc]
          rw [hdc]
          rfl
        rw [ih _ _ hstep, List.map_cons, List.flatten_cons, List.append_assoc]
  rw [extract_information,
    houter texts (init_results cfg.extractionTypes) []
      (lookupKey_init_results etype cfg.extractionTypes [] (Or.inl h2))]
  simp

/-! ## Claim C6: aggregate order -/

/-- C6: for every run configuration with its configured category list
(whose keys, coming from a mapping, are distinct) and every category in
it, the final aggregate sequence of that category is exactly the
concatenation, in document-then-chunk iteration order, of the per-chunk
contributions to that category — no reordering and no deduplication. -/
theorem extract_information_order (cfg : OrchestratorCfg) (texts : List Str)
    (etype : Str) (h1 : cfg.extractionTypes.Nodup)
    (h2 : etype ∈ cfg.extractionTypes) :
    lookupKey (extract_information cfg texts) etype =
      some ((texts.map (fun text =>
        (((cfg.chunker text).map (chunkContribution cfg etype))).flatten)).flatten) :=
  extract_information_lookup cfg texts etype h1 h2

/-- Orchestrator configuration of the C6 witness: one category, identity
prompt, echoing model, loader returning a fixed mapping, identity
chunker. -/
def c6Cfg : OrchestratorCfg where
  extractionTypes := [['x']]
  minChunkLength := 0
  formatPrompt := fun _ chunk => chunk
  llm := fun p => Except.ok p
  loader := fun _ => Except.ok (PyVal.dict [(['x'], PyVal.str ['v'])])
  chunker := fun t => [t]

/-- Witness for C6 at a concrete run: one document, one chunk, one
category; the aggregate is the single parsed value in order. -/
theorem extract_information_order_witness :
    c6Cfg.extractionTypes.Nodup ∧ (['x'] : Str) ∈ c6Cfg.extractionTypes ∧
    lookupKey (extract_information c6Cfg [['a', 'b']]) ['x'] =
      some ((([['a', 'b']] : List Str).map (fun text =>
        (((c6Cfg.chunker text).map (chunkContribution c6Cfg ['x']))).flatten)).flatten) :=
  ⟨by decide, by decide,
    extract_information_order c6Cfg [['a', 'b']] ['x'] (by decide) (by decide)⟩

/-! ## Claim C5: partial failure isolation -/

/-- C5: when the model client raises on exactly the middle chunk of a
three-chunk document, the final aggregate of the category is exactly the
contribution of the first chunk followed by the contribution of the
third: the failing chunk is omitted, the other chunks are unaffected,
and (the embedding being a total function) no exception escapes the
orchestrator. -/
theorem extract_information_partial_failure (cfg : OrchestratorCfg)
    (text c1 c2 c3 : Str) (etype : Str)
    (h1 : cfg.extractionTypes.Nodup) (h2 : etype ∈ cfg.extractionTypes)
    (hch : cfg.chunker text = [c1, c2, c3])
    (hfail : cfg.llm (cfg.formatPrompt etype c2) = Except.error ()) :
    lookupKey (extract_information cfg [text]) etype =
      some (chunkContribution cfg etype c1 ++ chunkContribution cfg etype c3) := by
  rw [extract_information_lookup cfg [text] etype h1 h2]
  have h2none : chunkContribution cfg etype c2 = [] := by
    rw [chunkContribution, process_chunk_none_of_llm_error cfg etype c2 hfail]
  simp [docContribution, hch, h2none]

/-- Orchestrator configuration of the C5 witness: the model client
raises exactly on the middle chunk. -/
def c5Cfg : OrchestratorCfg where
  extractionTypes := [['x']]
  minChunkLength := 0
  formatPrompt := fun _ chunk => chunk
  llm := fun p => if p = ['b', 'a', 'd'] then Except.error ()
                  else Except.ok p
  loader := fun _ => Except.ok (PyVal.dict [(['x'], PyVal.list [PyVal.str ['a']])])
  chunker := fun _ => [['c', '1'], ['b', 'a', 'd'], ['c', '3']]

/-- Witness for C5 at a concrete run: three chunks, the model raises on
the middle one, and the aggregate is the contributions of chunks one and
three. -/
theorem extract_information_partial_failure_witness :
    c5Cfg.extractionTypes.Nodup ∧ (['x'] : Str) ∈ c5Cfg.extractionTypes ∧
    c5Cfg.chunker ['t'] = [['c', '1'], ['b', 'a', 'd'], ['c', '3']] ∧
    c5Cfg.llm (c5Cfg.formatPrompt ['x'] ['b', 'a', 'd']) = Except.error () ∧
    lookupKey (extract_information c5Cfg [['t']]) ['x'] =
      some (chunkContribution c5Cfg ['x'] ['c', '1'] ++
        chunkContribution c5Cfg ['x'] ['c', '3']) :=
  ⟨by decide, by decide, rfl, rfl,
    extract_information_partial_failure c5Cfg ['t'] ['c', '1'] ['b', 'a', 'd']
      ['c', '3'] ['x'] (by decide) (by decide) rfl rfl⟩

/-! ## The run boundary (src/extract.py main / DocumentRAGExtractor,
src/src/config_manager.py)

One run, as driven by `main`, is: load and validate the configuration
(`ConfigManager`), load the prompts file (`PromptsManager`), resolve the
model type and its configuration, create the model backend
(`LLMFactory.create_llm`), process the documents directory
(`process_documents`), extract, and save the results.  The file system
and process environment are an explicit `RunEnv`; every raised Python
exception that reaches `main`'s handler is an `Except.error`. -/

end DocMine
